import Mathlib

set_option linter.unusedVariables false
set_option linter.unnecessarySimpa false

/-!
Shallow embedding of the voting core in `src/elections/src/proposal.rs`
(crate `elections`): the `Proposal` state machine with `vote_on_verified`,
`revoke_votes`, `status`, `is_active_or_cooldown`, the free functions
`validate_vote` and `assert_hash_hex_string`, and the error enums from
`src/elections/src/errors.rs`.

Modelling conventions:
* `u64`/`u32`/`u16`/`usize` are modelled as `Nat`.  The contract is built
  with checked arithmetic, where overflow or underflow aborts the
  transaction; every abort (a Rust panic raised by `require!`, `unwrap`,
  `expect`, an out-of-bounds index, or a checked-arithmetic failure) is
  modelled as the stateless outcome `Outcome.fatal`, so the non-aborting
  paths carry exact `Nat` arithmetic.
* `env::block_timestamp_ms()` is passed explicitly as a `now : Nat`
  argument to each time-sensitive operation.
* `near_sdk::collections::LookupMap` is modelled as an association list
  with the map operations `lmGet` / `lmInsert` / `lmRemove`; `lmInsert`
  mirrors `LookupMap::insert`, which stores the new value and whose Rust
  return value (the previous value, used by `vote_on_verified`) is read
  off separately with `lmGet` before the insertion.
* `TokenId` (`u64`) is `Nat` and `AccountId` is `String`.
-/

abbrev TokenId := Nat

abbrev AccountId := String

/-- `ProposalType` from `proposal.rs`. -/
inductive ProposalType where
  | HouseOfMerit
  | CouncilOfAdvisors
  | TransparencyCommission
  | SetupPackage
deriving DecidableEq, Repr

/-- `ProposalStatus` from `proposal.rs`. -/
inductive ProposalStatus where
  | NOT_STARTED
  | ONGOING
  | COOLDOWN
  | ENDED
deriving DecidableEq, Repr

/-- `VoteError` from `errors.rs`. -/
inductive VoteError where
  | WrongIssuer
  | NoSBTs
  | DuplicateCandidate
  | DoubleVote (t : TokenId)
deriving DecidableEq, Repr

/-- `RevokeVoteError` from `errors.rs`. -/
inductive RevokeVoteError where
  | NotActive
  | NotVoted
deriving DecidableEq, Repr

/-- A ballot: `pub type Vote = Vec<AccountId>;`. -/
abbrev Vote := List AccountId

/-- Lookup in an association-list model of `LookupMap` (first binding wins). -/
def lmGet {κ ν : Type} [DecidableEq κ] : List (κ × ν) → κ → Option ν
  | [], _ => none
  | e :: rest, k => if e.1 = k then some e.2 else lmGet rest k

/-- Removal of every binding of a key, model of `LookupMap::remove`. -/
def lmRemove {κ ν : Type} [DecidableEq κ] : List (κ × ν) → κ → List (κ × ν)
  | [], _ => []
  | e :: rest, k => if e.1 = k then lmRemove rest k else e :: lmRemove rest k

/-- Insertion overwriting any previous binding, model of `LookupMap::insert`
(the Rust return value — the previous binding — is `lmGet m k`). -/
def lmInsert {κ ν : Type} [DecidableEq κ] (m : List (κ × ν)) (k : κ) (v : ν) :
    List (κ × ν) :=
  (k, v) :: lmRemove m k

/-- The keys of an association-list map. -/
def lmKeys {κ ν : Type} (m : List (κ × ν)) : List κ :=
  m.map Prod.fst

/-- Sum of a numeric measure of the values of an association-list map. -/
def lmValSum {κ ν : Type} (f : ν → Nat) (m : List (κ × ν)) : Nat :=
  (m.map (fun e => f e.2)).sum

/-- Model of Rust `slice::binary_search` as used by `proposal.rs`: on the
strictly sorted `candidates` slice (a documented precondition of the struct
field and of `validate_vote`) binary search returns `Ok i` exactly for the
unique index `i` holding the element, and `Err` when the element is absent;
this is captured, independently of the search order, as the first index of
the element. -/
def binSearch (l : List AccountId) (x : AccountId) : Option Nat :=
  match l with
  | [] => none
  | a :: rest => if a = x then some 0 else (binSearch rest x).map (· + 1)

/-- `result[idx] += 1` on the tally vector (identity out of range; the
callers guard the range, matching the Rust panic on an out-of-range index). -/
def bumpAt : List Nat → Nat → List Nat
  | [], _ => []
  | x :: xs, 0 => (x + 1) :: xs
  | x :: xs, i + 1 => x :: bumpAt xs i

/-- `result[idx] -= 1` on the tally vector (identity out of range; the
callers guard the range and positivity, matching the Rust panics). -/
def decAt : List Nat → Nat → List Nat
  | [], _ => []
  | x :: xs, 0 => (x - 1) :: xs
  | x :: xs, i + 1 => x :: decAt xs i

/-- The first loop of `Proposal::vote_on_verified`: for each ballot
candidate, `binary_search` its index in `candidates` (`unwrap` aborts when
absent), increment `result[idx]` (aborts when out of range), and push the
index.  Returns the updated tally vector and the collected index list, or
`none` for an abort. -/
def tallyVotes (cands : List AccountId) : List Nat → Vote → Option (List Nat × List Nat)
  | r, [] => some (r, [])
  | r, c :: rest =>
    match binSearch cands c with
    | none => none
    | some idx =>
      if idx < r.length then
        match tallyVotes cands (bumpAt r idx) rest with
        | none => none
        | some (r', idxs) => some (r', idx :: idxs)
      else none

/-- The second loop of `Proposal::vote_on_verified`: for each presented
token, insert `(token, indexes)` into `voters`; if the insert returns a
previous value the loop stops with `some token` (the `DoubleVote` error),
with the insertion already performed; otherwise record
`user_sbt[voter] = token` and continue.  Returns the final `voters` and
`user_sbt` maps and the offending token, if any. -/
def insertTokens (indexes : List Nat) (voter : AccountId) :
    List TokenId → List (TokenId × List Nat) → List (AccountId × TokenId) →
    List (TokenId × List Nat) × List (AccountId × TokenId) × Option TokenId
  | [], vs, us => (vs, us, none)
  | t :: rest, vs, us =>
    if (lmGet vs t).isSome then (lmInsert vs t indexes, us, some t)
    else insertTokens indexes voter rest (lmInsert vs t indexes) (lmInsert us voter t)

/-- `Proposal` from `proposal.rs` (field `end` is called `end_` because
`end` is a reserved word). -/
structure Proposal where
  typ : ProposalType
  ref_link : String
  start : Nat
  end_ : Nat
  cooldown : Nat
  quorum : Nat
  seats : Nat
  candidates : List AccountId
  result : List Nat
  voters : List (TokenId × List Nat)
  voters_num : Nat
  min_candidate_support : Nat
  user_sbt : List (AccountId × TokenId)
deriving DecidableEq, Repr

/-- Outcome of a fallible, state-mutating operation: `fatal` is a Rust
panic (the mutation is discarded together with the transaction), `err e p`
is `Err(e)` returned with the — possibly mutated — state `p`, and `ok p`
is `Ok(())` with the new state `p`. -/
inductive Outcome (ε : Type) where
  | fatal
  | err (e : ε) (p : Proposal)
  | ok (p : Proposal)
deriving DecidableEq, Repr

/-- `Proposal::is_active_or_cooldown`: `start <= now && now <= end + cooldown`. -/
def Proposal.is_active_or_cooldown (p : Proposal) (now : Nat) : Bool :=
  decide (p.start ≤ now ∧ now ≤ p.end_ + p.cooldown)

/-- `Proposal::status`: the `now < start` / `now <= end` /
`now <= cooldown + end` cascade from `proposal.rs`. -/
def Proposal.status (p : Proposal) (now : Nat) : ProposalStatus :=
  if now < p.start then ProposalStatus.NOT_STARTED
  else if now ≤ p.end_ then ProposalStatus.ONGOING
  else if now ≤ p.cooldown + p.end_ then ProposalStatus.COOLDOWN
  else ProposalStatus.ENDED

/-- `Proposal::vote_on_verified`: `assert_active` (abort unless
`start <= now <= end`), then `voters_num += 1` and the tally loop, then the
token-insertion loop which may return `Err(DoubleVote(t))` with the
mutations so far left in place. -/
def Proposal.vote_on_verified (p : Proposal) (now : Nat) (sbts : List TokenId)
    (voter : AccountId) (vote : Vote) : Outcome VoteError :=
  if p.start ≤ now ∧ now ≤ p.end_ then
    match tallyVotes p.candidates p.result vote with
    | none => Outcome.fatal
    | some (r', indexes) =>
      match insertTokens indexes voter sbts p.voters p.user_sbt with
      | (vs, us, some t) =>
        Outcome.err (VoteError.DoubleVote t)
          { p with result := r', voters_num := p.voters_num + 1,
                   voters := vs, user_sbt := us }
      | (vs, us, none) =>
        Outcome.ok
          { p with result := r', voters_num := p.voters_num + 1,
                   voters := vs, user_sbt := us }
  else Outcome.fatal

/-- The decrement loop of `Proposal::revoke_votes`: `result[candidate] -= 1`
for each recorded index, aborting on an out-of-range index or a zero entry
(checked-arithmetic underflow). -/
def untallyVotes : List Nat → List Nat → Option (List Nat)
  | r, [] => some r
  | r, idx :: rest =>
    match r[idx]? with
    | none => none
    | some 0 => none
    | some (_ + 1) => untallyVotes (decAt r idx) rest

/-- `Proposal::revoke_votes`: `NotActive` outside the active-or-cooldown
window, `NotVoted` when the token has no `voters` entry, otherwise
decrement the tallies, `voters_num -= 1` (abort on underflow) and remove
the token from `voters`. -/
def Proposal.revoke_votes (p : Proposal) (now : Nat) (token_id : TokenId) :
    Outcome RevokeVoteError :=
  if p.is_active_or_cooldown now then
    match lmGet p.voters token_id with
    | none => Outcome.err RevokeVoteError.NotVoted p
    | some vote =>
      match untallyVotes p.result vote with
      | none => Outcome.fatal
      | some r' =>
        if p.voters_num = 0 then Outcome.fatal
        else
          Outcome.ok
            { p with result := r', voters_num := p.voters_num - 1,
                     voters := lmRemove p.voters token_id }
  else Outcome.err RevokeVoteError.NotActive p

/-- The candidate loop of `validate_vote`: abort on a repeated candidate
(the `HashSet::insert` check, modelled by membership in the list of
already-seen candidates) or on a candidate absent from the sorted list. -/
def validateLoop (valid : List AccountId) : List AccountId → List AccountId → Bool
  | vote_for, [] => true
  | vote_for, c :: rest =>
    if c ∈ vote_for then false
    else if (binSearch valid c).isSome then validateLoop valid (c :: vote_for) rest
    else false

/-- `validate_vote` from `proposal.rs`; `true` means the ballot passes and
`false` is the fatal `require!` rejection. -/
def validate_vote (typ : ProposalType) (vs : Vote) (max_credits : Nat)
    (valid_candidates : List AccountId) : Bool :=
  if typ = ProposalType.SetupPackage ∧ vs = [] then false
  else if max_credits < vs.length then false
  else validateLoop valid_candidates [] vs

/-- Value of one hexadecimal digit, by ASCII code: `48`–`57` are the digits
`0`–`9`, `97`–`102` the lowercase `a`–`f`, `65`–`70` the uppercase `A`–`F`. -/
def hexDigitVal (c : Char) : Option Nat :=
  if 48 ≤ c.toNat ∧ c.toNat ≤ 57 then some (c.toNat - 48)
  else if 97 ≤ c.toNat ∧ c.toNat ≤ 102 then some (c.toNat - 97 + 10)
  else if 65 ≤ c.toNat ∧ c.toNat ≤ 70 then some (c.toNat - 65 + 10)
  else none

/-- `hex::decode_to_slice`: consume the characters two at a time, each pair
becoming the byte `16 * hi + lo`; `none` on a non-hex character or an odd
length. -/
def hexDecode : List Char → Option (List Nat)
  | [] => some []
  | [_] => none
  | c1 :: c2 :: rest =>
    match hexDigitVal c1, hexDigitVal c2, hexDecode rest with
    | some hi, some lo, some bs => some ((16 * hi + lo) :: bs)
    | _, _, _ => none

/-- `assert_hash_hex_string` from `proposal.rs`: `require!` the length to
be 64 and hex-decode into 32 bytes; `none` models the fatal rejections (the
length `require!` and the `expect` on a malformed hex string).  A string is
its list of characters (the inputs are ASCII, so Rust byte length and
character count agree). -/
def assert_hash_hex_string (s : List Char) : Option (List Nat) :=
  if s.length = 64 then hexDecode s else none

/-! ## Sample states for concrete witnesses -/

/-- A small concrete proposal used by the witness theorems: two candidates,
window `[0, 100]` with a cooldown of `10`, empty tallies and maps. -/
def sampleProposal : Proposal :=
  { typ := ProposalType.HouseOfMerit, ref_link := "near.social/abc",
    start := 0, end_ := 100, cooldown := 10, quorum := 2, seats := 2,
    candidates := ["alice.near", "bob.near"], result := [0, 0],
    voters := [], voters_num := 0, min_candidate_support := 1, user_sbt := [] }

/-- The byte that hex-decoding produces at position `k`: the pair of
characters at positions `2k` and `2k + 1`, read as hexadecimal digits. -/
def hexPairAt (s : List Char) (k : Nat) : Option Nat :=
  match s[2 * k]?, s[2 * k + 1]? with
  | some c1, some c2 =>
    match hexDigitVal c1, hexDigitVal c2 with
    | some hi, some lo => some (16 * hi + lo)
    | _, _ => none
  | _, _ => none

/-- The sample proposal after a successful single-token vote at `now = 10`:
token `7`, account `alice.near`, ballot `[bob.near]`. -/
def afterVote : Proposal :=
  { sampleProposal with result := [0, 1], voters := [(7, [1])], voters_num := 1,
                        user_sbt := [("alice.near", 7)] }

/-- `afterVote` after token `7`'s vote is successfully revoked. -/
def afterRevoke : Proposal :=
  { sampleProposal with result := [0, 0], voters := [], voters_num := 0,
                        user_sbt := [("alice.near", 7)] }

/-- A state in which token `1` already has an active vote for the first
candidate, so presenting token `1` again is a double vote. -/
def doubleVoteState : Proposal :=
  { sampleProposal with result := [1, 0], voters := [(1, [0])], voters_num := 1,
                        user_sbt := [("alice.near", 1)] }

/-- A freshly created proposal, per the construction described in the spec:
zeroed tallies (one per candidate), empty voter maps, zero voter count. -/
def IsFresh (p : Proposal) : Prop :=
  p.result = List.replicate p.candidates.length 0 ∧ p.voters = [] ∧
    p.voters_num = 0 ∧ p.user_sbt = []

/-- One successful operation under the documented calling policy: a
`vote_on_verified` with exactly one presented token and a ballot that
passed `validate_vote` (against the proposal type, seat limit and candidate
list), or a successful `revoke_votes`. -/
inductive CleanStep : Proposal → Proposal → Prop where
  | vote (now : Nat) (t : TokenId) (voter : AccountId) (vote : Vote)
      (p p' : Proposal)
      (hval : validate_vote p.typ vote p.seats p.candidates = true)
      (hok : p.vote_on_verified now [t] voter vote = Outcome.ok p') :
      CleanStep p p'
  | revoke (now : Nat) (tok : TokenId) (p p' : Proposal)
      (hok : p.revoke_votes now tok = Outcome.ok p') : CleanStep p p'

/-- Reachability by successful single-token validated votes and successful
revokes. -/
abbrev CleanReach : Proposal → Proposal → Prop :=
  Relation.ReflTransGen CleanStep

/-- One call under the documented single-token policy, keeping the state a
call returns even when it returns an error (votes may also be unvalidated
and revokes may fail): this is the coarsest state-transition relation the
raw functions generate. -/
inductive AnyStep : Proposal → Proposal → Prop where
  | vote_ok (now : Nat) (t : TokenId) (voter : AccountId) (vote : Vote)
      (p p' : Proposal)
      (hok : p.vote_on_verified now [t] voter vote = Outcome.ok p') :
      AnyStep p p'
  | vote_err (now : Nat) (t : TokenId) (voter : AccountId) (vote : Vote)
      (e : VoteError) (p p' : Proposal)
      (herr : p.vote_on_verified now [t] voter vote = Outcome.err e p') :
      AnyStep p p'
  | revoke_ok (now : Nat) (tok : TokenId) (p p' : Proposal)
      (hok : p.revoke_votes now tok = Outcome.ok p') : AnyStep p p'
  | revoke_err (now : Nat) (tok : TokenId) (e : RevokeVoteError) (p p' : Proposal)
      (herr : p.revoke_votes now tok = Outcome.err e p') : AnyStep p p'

/-- Reachability by arbitrary single-token calls, error outcomes included. -/
abbrev AnyReach : Proposal → Proposal → Prop :=
  Relation.ReflTransGen AnyStep

/-- The internal consistency of a proposal state: `voters` keys are
distinct, there are at least as many counted voters as `voters` entries,
every recorded candidate index is in range, and each tally entry dominates
the number of recorded votes for it. -/
def VotersInv (p : Proposal) : Prop :=
  (lmKeys p.voters).Nodup ∧
  p.voters.length ≤ p.voters_num ∧
  (∀ e ∈ p.voters, ∀ i ∈ e.2, i < p.result.length) ∧
  ∀ j, lmValSum (fun v => v.count j) p.voters ≤ p.result[j]?.getD 0

/-! ## Lemmas about the association-list map model -/

theorem lmGet_eq_none_of_not_mem {κ ν : Type} [DecidableEq κ]
    (m : List (κ × ν)) (k : κ) (h : k ∉ lmKeys m) : lmGet m k = none := by
  induction m with
  | nil => rfl
  | cons e rest ih =>
    simp [lmKeys] at h
    simp [lmGet, Ne.symm h.1, ih (by simp [lmKeys, h.2])]

theorem lmGet_mem {κ ν : Type} [DecidableEq κ]
    (m : List (κ × ν)) (k : κ) (v : ν) (h : lmGet m k = some v) : (k, v) ∈ m := by
  induction m with
  | nil => simp [lmGet] at h
  | cons e rest ih =>
    by_cases hk : e.1 = k
    · simp [lmGet, hk] at h
      have he : e = (k, v) := by
        cases e
        simp_all
      rw [he]
      exact List.mem_cons_self _ _
    · simp [lmGet, hk] at h
      exact List.mem_cons_of_mem _ (ih h)

theorem lmRemove_eq_self {κ ν : Type} [DecidableEq κ]
    (m : List (κ × ν)) (k : κ) (h : lmGet m k = none) : lmRemove m k = m := by
  induction m with
  | nil => rfl
  | cons e rest ih =>
    by_cases hk : e.1 = k
    · simp [lmGet, hk] at h
    · simp [lmGet, hk] at h
      simp [lmRemove, hk, ih h]

theorem not_mem_lmKeys_lmRemove {κ ν : Type} [DecidableEq κ]
    (m : List (κ × ν)) (k : κ) : k ∉ lmKeys (lmRemove m k) := by
  induction m with
  | nil => simp [lmRemove, lmKeys]
  | cons e rest ih =>
    by_cases hk : e.1 = k
    · simpa [lmRemove, hk] using ih
    · simp [lmRemove, hk, lmKeys]
      exact ⟨fun hh => hk hh.symm, by simpa [lmKeys] using ih⟩

theorem lmRemove_subset {κ ν : Type} [DecidableEq κ]
    (m : List (κ × ν)) (k : κ) (e : κ × ν) (h : e ∈ lmRemove m k) : e ∈ m := by
  induction m with
  | nil => simpa [lmRemove] using h
  | cons a rest ih =>
    by_cases hk : a.1 = k
    · simp [lmRemove, hk] at h
      exact List.mem_cons_of_mem _ (ih h)
    · simp [lmRemove, hk] at h
      rcases h with h | h
      · simp [h]
      · exact List.mem_cons_of_mem _ (ih h)

theorem lmKeys_lmRemove_nodup {κ ν : Type} [DecidableEq κ]
    (m : List (κ × ν)) (k : κ) (h : (lmKeys m).Nodup) :
    (lmKeys (lmRemove m k)).Nodup := by
  induction m with
  | nil => simp [lmRemove, lmKeys]
  | cons e rest ih =>
    simp [lmKeys] at h
    by_cases hk : e.1 = k
    · simpa [lmRemove, hk] using ih h.2
    · simp [lmRemove, hk, lmKeys]
      exact ⟨fun x hx => h.1 x (lmRemove_subset rest k (e.1, x) hx),
             by simpa [lmKeys] using ih h.2⟩

theorem lmKeys_lmInsert_nodup {κ ν : Type} [DecidableEq κ]
    (m : List (κ × ν)) (k : κ) (v : ν) (h : (lmKeys m).Nodup) :
    (lmKeys (lmInsert m k v)).Nodup := by
  simp [lmInsert, lmKeys]
  exact ⟨by simpa [lmKeys] using not_mem_lmKeys_lmRemove m k,
         by simpa [lmKeys] using lmKeys_lmRemove_nodup m k h⟩

theorem length_lmRemove_get_some {κ ν : Type} [DecidableEq κ]
    (m : List (κ × ν)) (k : κ) (v : ν) (hnd : (lmKeys m).Nodup)
    (h : lmGet m k = some v) : (lmRemove m k).length + 1 = m.length := by
  induction m with
  | nil => simp [lmGet] at h
  | cons e rest ih =>
    simp [lmKeys] at hnd
    by_cases hk : e.1 = k
    · have hnone : lmGet rest k = none := by
        cases hg : lmGet rest k with
        | none => rfl
        | some w =>
          have hmem : (e.1, w) ∈ rest := by
            rw [hk]
            exact lmGet_mem rest k w hg
          exact absurd hmem (hnd.1 w)
      simp [lmRemove, hk, lmRemove_eq_self rest k hnone]
    · simp [lmGet, hk] at h
      simp [lmRemove, hk]
      exact ih hnd.2 h

theorem lmValSum_lmRemove_le {κ ν : Type} [DecidableEq κ]
    (f : ν → Nat) (m : List (κ × ν)) (k : κ) :
    lmValSum f (lmRemove m k) ≤ lmValSum f m := by
  induction m with
  | nil => simp [lmRemove]
  | cons e rest ih =>
    by_cases hk : e.1 = k
    · simp [lmRemove, hk, lmValSum]
      calc lmValSum f (lmRemove rest k) ≤ lmValSum f rest := ih
        _ ≤ f e.2 + lmValSum f rest := Nat.le_add_left _ _
    · simp [lmRemove, hk, lmValSum] at ih ⊢
      omega

theorem lmValSum_lmRemove_get_some {κ ν : Type} [DecidableEq κ]
    (f : ν → Nat) (m : List (κ × ν)) (k : κ) (v : ν) (hnd : (lmKeys m).Nodup)
    (h : lmGet m k = some v) :
    lmValSum f (lmRemove m k) + f v = lmValSum f m := by
  induction m with
  | nil => simp [lmGet] at h
  | cons e rest ih =>
    simp [lmKeys] at hnd
    by_cases hk : e.1 = k
    · have hnone : lmGet rest k = none := by
        cases hg : lmGet rest k with
        | none => rfl
        | some w =>
          have hmem : (e.1, w) ∈ rest := by
            rw [hk]
            exact lmGet_mem rest k w hg
          exact absurd hmem (hnd.1 w)
      have hv : e.2 = v := by simpa [lmGet, hk] using h
      simp [lmRemove, hk, lmRemove_eq_self rest k hnone, lmValSum, hv]
      omega
    · simp [lmGet, hk] at h
      simp [lmRemove, hk, lmValSum] at ih ⊢
      have := ih hnd.2 h
      omega

theorem lmGet_lmInsert_self {κ ν : Type} [DecidableEq κ]
    (m : List (κ × ν)) (k : κ) (v : ν) : lmGet (lmInsert m k v) k = some v := by
  simp [lmInsert, lmGet]

theorem lmGet_lmRemove_self {κ ν : Type} [DecidableEq κ]
    (m : List (κ × ν)) (k : κ) : lmGet (lmRemove m k) k = none :=
  lmGet_eq_none_of_not_mem _ _ (not_mem_lmKeys_lmRemove m k)

/-! ## Lemmas about the tally vector operations -/

theorem length_bumpAt (r : List Nat) (i : Nat) : (bumpAt r i).length = r.length := by
  induction r generalizing i with
  | nil => rfl
  | cons x xs ih =>
    cases i with
    | zero => rfl
    | succ j => simp [bumpAt, ih]

theorem length_decAt (r : List Nat) (i : Nat) : (decAt r i).length = r.length := by
  induction r generalizing i with
  | nil => rfl
  | cons x xs ih =>
    cases i with
    | zero => rfl
    | succ j => simp [decAt, ih]

theorem getElem?_bumpAt (r : List Nat) (i j : Nat) :
    (bumpAt r i)[j]? = if j = i then r[j]?.map (· + 1) else r[j]? := by
  induction r generalizing i j with
  | nil => simp [bumpAt]
  | cons x xs ih =>
    cases i with
    | zero =>
      cases j with
      | zero => simp [bumpAt]
      | succ jj => simp [bumpAt]
    | succ ii =>
      cases j with
      | zero => simp [bumpAt]
      | succ jj => simpa [bumpAt] using ih ii jj

theorem getElem?_decAt (r : List Nat) (i j : Nat) :
    (decAt r i)[j]? = if j = i then r[j]?.map (· - 1) else r[j]? := by
  induction r generalizing i j with
  | nil => simp [decAt]
  | cons x xs ih =>
    cases i with
    | zero =>
      cases j with
      | zero => simp [decAt]
      | succ jj => simp [decAt]
    | succ ii =>
      cases j with
      | zero => simp [decAt]
      | succ jj => simpa [decAt] using ih ii jj

theorem binSearch_isSome_iff (l : List AccountId) (x : AccountId) :
    (binSearch l x).isSome ↔ x ∈ l := by
  induction l with
  | nil => simp [binSearch]
  | cons a rest ih =>
    by_cases ha : a = x
    · simp [binSearch, ha]
    · have hne : ¬ x = a := fun hh => ha hh.symm
      cases hb : binSearch rest x with
      | none =>
        have hx : ¬ x ∈ rest := by
          rw [← ih, hb]
          simp
      
        simp [binSearch, ha, hb, List.mem_cons, hne, hx]
      | some i =>
        have hx : x ∈ rest := by
          rw [← ih, hb]
          simp
        simp [binSearch, ha, hb, List.mem_cons, hx]

/-- Pointwise characterisation of the vote-tallying loop: on success the
tally vector keeps its length, the collected indices are in ballot order and
in range, and entry `j` grows by the number of ballot candidates resolving
to index `j`. -/
theorem tallyVotes_spec (cands : List AccountId) :
    ∀ (v : Vote) (r r' idxs : List Nat),
      tallyVotes cands r v = some (r', idxs) →
      r'.length = r.length ∧ idxs.length = v.length ∧
        (∀ i ∈ idxs, i < r.length) ∧
        ∀ j, r'[j]? = r[j]?.map (· + idxs.count j) := by
  intro v
  induction v with
  | nil =>
    intro r r' idxs h
    simp [tallyVotes] at h
    obtain ⟨rfl, rfl⟩ := h
    refine ⟨rfl, rfl, by simp, ?_⟩
    intro j
    cases hg : r[j]? <;> simp [hg]
  | cons c rest ih =>
    intro r r' idxs h
    simp only [tallyVotes] at h
    cases hb : binSearch cands c with
    | none => simp [hb] at h
    | some idx =>
      simp only [hb] at h
      by_cases hlt : idx < r.length
      · simp only [if_pos hlt] at h
        cases ht : tallyVotes cands (bumpAt r idx) rest with
        | none => simp [ht] at h
        | some pr =>
          obtain ⟨r2, idxs2⟩ := pr
          simp only [ht, Option.some.injEq, Prod.mk.injEq] at h
          obtain ⟨hr2, hidxs⟩ := h
          obtain ⟨hlen, hcount, hmem, hpt⟩ := ih (bumpAt r idx) r2 idxs2 ht
          subst hr2
          subst hidxs
          refine ⟨by simpa [length_bumpAt] using hlen, by simpa using hcount, ?_, ?_⟩
          · intro i hi
            rcases List.mem_cons.mp hi with hi | hi
            · exact hi ▸ hlt
            · simpa [length_bumpAt] using hmem i hi
          · intro j
            have hj' := hpt j
            rw [getElem?_bumpAt] at hj'
            by_cases hj : j = idx
            · subst hj
              rw [hj']
              cases hg : r[j]? <;>
                simp [hg, List.count_cons, Option.map_map, Function.comp]
              omega
            · rw [hj']
              simp [hj, List.count_cons, fun hh : idx = j => hj hh.symm]
      · simp [if_neg hlt] at h

/-- Pointwise characterisation of the revoke decrement loop: on success the
tally vector keeps its length and entry `j` shrinks by the number of
occurrences of `j` in the recorded index list. -/
theorem untallyVotes_spec :
    ∀ (l r r' : List Nat),
      untallyVotes r l = some r' →
      r'.length = r.length ∧ ∀ j, r'[j]? = r[j]?.map (· - l.count j) := by
  intro l
  induction l with
  | nil =>
    intro r r' h
    simp [untallyVotes] at h
    subst h
    refine ⟨rfl, ?_⟩
    intro j
    cases hg : r[j]? <;> simp [hg]
  | cons idx rest ih =>
    intro r r' h
    simp only [untallyVotes] at h
    cases hg : r[idx]? with
    | none => simp [hg] at h
    | some n =>
      cases n with
      | zero => simp [hg] at h
      | succ m =>
        simp only [hg] at h
        obtain ⟨hlen, hpt⟩ := ih (decAt r idx) r' h
        refine ⟨by simpa [length_decAt] using hlen, ?_⟩
        intro j
        have hj' := hpt j
        rw [getElem?_decAt] at hj'
        by_cases hj : j = idx
        · subst hj
          rw [hj']
          cases hg2 : r[j]? <;>
            simp [hg2, List.count_cons, Option.map_map, Function.comp]
          omega
        · rw [hj']
          simp [hj, List.count_cons, fun hh : idx = j => hj hh.symm]

/-- The revoke decrement loop succeeds whenever every index is in range and
no entry is asked to drop below zero. -/
theorem untallyVotes_isSome :
    ∀ (l r : List Nat),
      (∀ i ∈ l, i < r.length) →
      (∀ j, l.count j ≤ r[j]?.getD 0) →
      ∃ r', untallyVotes r l = some r' := by
  intro l
  induction l with
  | nil =>
    intro r _ _
    exact ⟨r, rfl⟩
  | cons idx rest ih =>
    intro r hmem hcnt
    have hidx : idx < r.length := hmem idx (List.mem_cons_self _ _)
    cases hg : r[idx]? with
    | none =>
      rw [List.getElem?_eq_none_iff] at hg
      omega
    | some n =>
      have hpos : 1 ≤ n := by
        have hc := hcnt idx
        rw [hg] at hc
        simp [List.count_cons] at hc
        omega
      cases n with
      | zero => omega
      | succ m =>
        have hrec := ih (decAt r idx)
          (fun i hi => by simpa [length_decAt] using hmem i (List.mem_cons_of_mem _ hi))
          (fun j => by
            have hc := hcnt j
            rw [getElem?_decAt]
            by_cases hj : j = idx
            · subst hj
              rw [hg] at hc ⊢
              simp [List.count_cons] at hc ⊢
              omega
            · simp only [if_neg hj]
              simp [List.count_cons, fun hh : idx = j => hj hh.symm] at hc
              omega)
        obtain ⟨r', hr'⟩ := hrec
        refine ⟨r', ?_⟩
        simp only [untallyVotes, hg]
        exact hr'

/-! ## Unfolding lemmas for the operations -/

/-- `vote_on_verified` specialised to a single presented token (the policy
the contract enforces at its call site): the duplicate check is against the
pre-call `voters` map, and on the `DoubleVote` error the tallies, the
voter counter and the overwritten `voters` entry are left mutated while
`user_sbt` is untouched. -/
theorem vote_on_verified_single (p : Proposal) (now : Nat) (t : TokenId)
    (voter : AccountId) (vote : Vote) :
    p.vote_on_verified now [t] voter vote =
      if p.start ≤ now ∧ now ≤ p.end_ then
        match tallyVotes p.candidates p.result vote with
        | none => Outcome.fatal
        | some (r', idxs) =>
          if (lmGet p.voters t).isSome then
            Outcome.err (VoteError.DoubleVote t)
              { p with result := r', voters_num := p.voters_num + 1,
                       voters := lmInsert p.voters t idxs }
          else
            Outcome.ok
              { p with result := r', voters_num := p.voters_num + 1,
                       voters := lmInsert p.voters t idxs,
                       user_sbt := lmInsert p.user_sbt voter t }
      else Outcome.fatal := by
  unfold Proposal.vote_on_verified
  by_cases hact : p.start ≤ now ∧ now ≤ p.end_
  · rw [if_pos hact, if_pos hact]
    cases ht : tallyVotes p.candidates p.result vote with
    | none => rfl
    | some pr =>
      obtain ⟨r', idxs⟩ := pr
      by_cases hprev : (lmGet p.voters t).isSome
      · simp [insertTokens, hprev]
      · simp [insertTokens, hprev]
  · rw [if_neg hact, if_neg hact]

/-- Inversion of a successful `revoke_votes`: the window was active or in
cooldown, the token had a recorded vote, the decrement loop succeeded, and
the new state is the explicit update (with `user_sbt` untouched). -/
theorem revoke_votes_ok_inv (p : Proposal) (now : Nat) (tok : TokenId) (p' : Proposal)
    (h : p.revoke_votes now tok = Outcome.ok p') :
    p.is_active_or_cooldown now = true ∧
      ∃ v r', lmGet p.voters tok = some v ∧ untallyVotes p.result v = some r' ∧
        p.voters_num ≠ 0 ∧
        p' = { p with result := r', voters_num := p.voters_num - 1,
                      voters := lmRemove p.voters tok } := by
  unfold Proposal.revoke_votes at h
  by_cases hact : p.is_active_or_cooldown now = true
  · rw [if_pos hact] at h
    cases hg : lmGet p.voters tok with
    | none =>
      simp only [hg] at h
      cases h
    | some v =>
      simp only [hg] at h
      cases hu : untallyVotes p.result v with
      | none =>
        simp only [hu] at h
        cases h
      | some r' =>
        simp only [hu] at h
        by_cases hn : p.voters_num = 0
        · rw [if_pos hn] at h
          cases h
        · rw [if_neg hn] at h
          cases h
          exact ⟨hact, v, r', rfl, hu, hn, rfl⟩
  · rw [if_neg hact] at h
    cases h

/-! ## C5 -/

/-- C5: for every proposal with `start ≤ end` and every `now`, `status now`
is `NOT_STARTED` iff `now < start`, `ONGOING` iff `start ≤ now ≤ end`,
`COOLDOWN` iff `end < now ≤ end + cooldown`, and `ENDED` iff
`now > end + cooldown`; the four windows therefore partition all of time
with no gap or overlap. -/
theorem C5_status_partition (p : Proposal) (h : p.start ≤ p.end_) (now : Nat) :
    (p.status now = ProposalStatus.NOT_STARTED ↔ now < p.start) ∧
    (p.status now = ProposalStatus.ONGOING ↔ p.start ≤ now ∧ now ≤ p.end_) ∧
    (p.status now = ProposalStatus.COOLDOWN ↔
      p.end_ < now ∧ now ≤ p.end_ + p.cooldown) ∧
    (p.status now = ProposalStatus.ENDED ↔ p.end_ + p.cooldown < now) := by
  unfold Proposal.status
  split_ifs with h1 h2 h3 <;> refine ⟨?_, ?_, ?_, ?_⟩ <;> simp <;> omega

/-- Witness for C5 at the spec's sample points: `start = 0`, `end = 100`,
`cooldown = 10`. -/
theorem C5_status_partition_witness :
    sampleProposal.status 0 = ProposalStatus.ONGOING ∧
    sampleProposal.status 100 = ProposalStatus.ONGOING ∧
    sampleProposal.status 101 = ProposalStatus.COOLDOWN ∧
    sampleProposal.status 110 = ProposalStatus.COOLDOWN ∧
    sampleProposal.status 111 = ProposalStatus.ENDED :=
  ⟨(C5_status_partition sampleProposal (by decide) 0).2.1.mpr (by decide),
   (C5_status_partition sampleProposal (by decide) 100).2.1.mpr (by decide),
   (C5_status_partition sampleProposal (by decide) 101).2.2.1.mpr (by decide),
   (C5_status_partition sampleProposal (by decide) 110).2.2.1.mpr (by decide),
   (C5_status_partition sampleProposal (by decide) 111).2.2.2.mpr (by decide)⟩

/-! ## C6 -/

/-- C6: `revoke_votes` returns `Err(NotActive)` exactly when
`is_active_or_cooldown` is false; otherwise it returns `Err(NotVoted)`
exactly when the token is not a key of `voters` (so a second revoke of an
already-revoked token yields `NotVoted`, as the token is no longer a key
after a successful revoke); in both error cases the returned state is the
unchanged proposal. -/
theorem C6_revoke_errors (p : Proposal) (now : Nat) (tok : TokenId) :
    (p.revoke_votes now tok = Outcome.err RevokeVoteError.NotActive p ↔
      p.is_active_or_cooldown now = false) ∧
    (p.is_active_or_cooldown now = true →
      (p.revoke_votes now tok = Outcome.err RevokeVoteError.NotVoted p ↔
        lmGet p.voters tok = none)) ∧
    (∀ e p', p.revoke_votes now tok = Outcome.err e p' → p' = p) ∧
    (∀ p', p.revoke_votes now tok = Outcome.ok p' →
      lmGet p'.voters tok = none) := by
  by_cases hact : p.is_active_or_cooldown now = true
  · cases hg : lmGet p.voters tok with
    | none =>
      have hrv : p.revoke_votes now tok = Outcome.err RevokeVoteError.NotVoted p := by
        unfold Proposal.revoke_votes
        rw [if_pos hact, hg]
      rw [hrv]
      refine ⟨by simp [hact], fun _ => by simp, ?_, ?_⟩
      · intro e p' hh
        cases hh
        rfl
      · intro p' hh
        cases hh
    | some v =>
      cases hu : untallyVotes p.result v with
      | none =>
        have hrv : p.revoke_votes now tok = Outcome.fatal := by
          unfold Proposal.revoke_votes
          rw [if_pos hact]
          simp only [hg, hu]
        rw [hrv]
        refine ⟨by simp [hact], fun _ => by simp [hg], ?_, ?_⟩
        · intro e p' hh
          cases hh
        · intro p' hh
          cases hh
      | some r' =>
        by_cases hn : p.voters_num = 0
        · have hrv : p.revoke_votes now tok = Outcome.fatal := by
            unfold Proposal.revoke_votes
            rw [if_pos hact]
            simp only [hg, hu]
            rw [if_pos hn]
          rw [hrv]
          refine ⟨by simp [hact], fun _ => by simp [hg], ?_, ?_⟩
          · intro e p' hh
            cases hh
          · intro p' hh
            cases hh
        · have hrv : p.revoke_votes now tok =
              Outcome.ok { p with result := r', voters_num := p.voters_num - 1,
                                  voters := lmRemove p.voters tok } := by
            unfold Proposal.revoke_votes
            rw [if_pos hact]
            simp only [hg, hu]
            rw [if_neg hn]
          rw [hrv]
          refine ⟨by simp [hact], fun _ => by simp [hg], ?_, ?_⟩
          · intro e p' hh
            cases hh
          · intro p' hh
            cases hh
            exact lmGet_lmRemove_self p.voters tok
  · have hf : p.is_active_or_cooldown now = false := by
      cases hb : p.is_active_or_cooldown now with
      | false => rfl
      | true => exact absurd hb hact
    have hrv : p.revoke_votes now tok = Outcome.err RevokeVoteError.NotActive p := by
      unfold Proposal.revoke_votes
      rw [if_neg hact]
    rw [hrv]
    refine ⟨by simp [hf], fun hh => absurd hh hact, ?_, ?_⟩
    · intro e p' hh
      cases hh
      rfl
    · intro p' hh
      cases hh

/-- Witness for C6: in the sample proposal at `now = 200` (past cooldown)
a revoke fails with `NotActive` and leaves the state unchanged. -/
theorem C6_revoke_errors_witness :
    sampleProposal.revoke_votes 200 1 =
      Outcome.err RevokeVoteError.NotActive sampleProposal :=
  (C6_revoke_errors sampleProposal 200 1).1.mpr (by decide)

/-! ## C9 -/

theorem hexPairAt_cons2 (c1 c2 : Char) (rest : List Char) (k : Nat) :
    hexPairAt (c1 :: c2 :: rest) (k + 1) = hexPairAt rest k := by
  unfold hexPairAt
  have e1 : 2 * (k + 1) = 2 * k + 1 + 1 := by omega
  have e2 : 2 * (k + 1) + 1 = (2 * k + 1) + 1 + 1 := by omega
  rw [e2, e1]
  simp [List.getElem?_cons_succ]

/-- A hex digit value is below 16. -/
theorem hexDigitVal_lt (c : Char) (v : Nat) (h : hexDigitVal c = some v) :
    v < 16 := by
  unfold hexDigitVal at h
  split_ifs at h with h1 h2 h3 <;> simp at h <;> omega

/-- On success `hexDecode` halves the length and produces, at each position,
the byte formed by the corresponding character pair. -/
theorem hexDecode_spec :
    ∀ (s : List Char) (bs : List Nat), hexDecode s = some bs →
      2 * bs.length = s.length ∧ ∀ k, bs[k]? = hexPairAt s k
  | [], bs, h => by
    simp [hexDecode] at h
    subst h
    refine ⟨rfl, fun k => ?_⟩
    simp [hexPairAt]
  | [c], bs, h => by simp [hexDecode] at h
  | c1 :: c2 :: rest, bs, h => by
    cases h1 : hexDigitVal c1 with
    | none => simp [hexDecode, h1] at h
    | some hi =>
      cases h2 : hexDigitVal c2 with
      | none => simp [hexDecode, h1, h2] at h
      | some lo =>
        cases hr : hexDecode rest with
        | none => simp [hexDecode, h1, h2, hr] at h
        | some bs' =>
          have hb : bs = (16 * hi + lo) :: bs' := by
            simp [hexDecode, h1, h2, hr] at h
            exact h.symm
          obtain ⟨hlen, hpt⟩ := hexDecode_spec rest bs' hr
          subst hb
          refine ⟨by simp; omega, fun k => ?_⟩
          cases k with
          | zero => simp [hexPairAt, h1, h2]
          | succ kk =>
            rw [hexPairAt_cons2]
            simpa using hpt kk

/-- `hexDecode` succeeds when the length is even and every character is a
hex digit. -/
theorem hexDecode_isSome :
    ∀ (s : List Char), (∀ c ∈ s, (hexDigitVal c).isSome) →
      s.length % 2 = 0 → ∃ bs, hexDecode s = some bs
  | [], _, _ => ⟨[], rfl⟩
  | [c], hv, hlen => by simp at hlen
  | c1 :: c2 :: rest, hv, hlen => by
    obtain ⟨hi, h1⟩ := Option.isSome_iff_exists.mp (hv c1 (by simp))
    obtain ⟨lo, h2⟩ := Option.isSome_iff_exists.mp (hv c2 (by simp))
    obtain ⟨bs', hr⟩ := hexDecode_isSome rest
      (fun c hc => hv c (by simp [hc]))
      (by simp at hlen ⊢; omega)
    exact ⟨(16 * hi + lo) :: bs', by simp [hexDecode, h1, h2, hr]⟩

/-- If `hexDecode` succeeds, every character was a hex digit. -/
theorem hexDecode_all_isSome :
    ∀ (s : List Char) (bs : List Nat), hexDecode s = some bs →
      ∀ c ∈ s, (hexDigitVal c).isSome
  | [], bs, h => by simp
  | [c], bs, h => by simp [hexDecode] at h
  | c1 :: c2 :: rest, bs, h => by
    cases h1 : hexDigitVal c1 with
    | none => simp [hexDecode, h1] at h
    | some hi =>
      cases h2 : hexDigitVal c2 with
      | none => simp [hexDecode, h1, h2] at h
      | some lo =>
        cases hr : hexDecode rest with
        | none => simp [hexDecode, h1, h2, hr] at h
        | some bs' =>
          intro c hc
          rcases List.mem_cons.mp hc with rfl | hc
          · simp [h1]
          · rcases List.mem_cons.mp hc with rfl | hc
            · simp [h2]
            · exact hexDecode_all_isSome rest bs' hr c hc

/-- C9: `assert_hash_hex_string` fails whenever the input is not exactly 64
characters, fails whenever some character is not a valid hexadecimal digit,
and otherwise returns the 32 raw bytes of the hex decoding: byte `k` is
`16 * hi + lo` for the digit values `hi`, `lo` of the characters at
positions `2k` and `2k + 1`. -/
theorem C9_assert_hash_hex (s : List Char) :
    (s.length ≠ 64 → assert_hash_hex_string s = none) ∧
    (s.length = 64 → (∃ c ∈ s, hexDigitVal c = none) →
      assert_hash_hex_string s = none) ∧
    (s.length = 64 → (∀ c ∈ s, (hexDigitVal c).isSome) →
      ∃ bs, assert_hash_hex_string s = some bs ∧ bs.length = 32 ∧
        (∀ b ∈ bs, b < 256) ∧ ∀ k, bs[k]? = hexPairAt s k) := by
  refine ⟨fun hlen => by simp [assert_hash_hex_string, hlen], ?_, ?_⟩
  · intro hlen hbad
    obtain ⟨c, hc, hcv⟩ := hbad
    unfold assert_hash_hex_string
    rw [if_pos hlen]
    cases hd : hexDecode s with
    | none => rfl
    | some bs =>
      have := hexDecode_all_isSome s bs hd c hc
      rw [hcv] at this
      simp at this
  · intro hlen hall
    obtain ⟨bs, hd⟩ := hexDecode_isSome s hall (by omega)
    obtain ⟨hhalf, hpt⟩ := hexDecode_spec s bs hd
    refine ⟨bs, by simp [assert_hash_hex_string, hlen, hd], by omega, ?_, hpt⟩
    intro b hb
    obtain ⟨k, hk⟩ := List.mem_iff_getElem?.mp hb
    have hbk := hpt k
    rw [hk] at hbk
    cases hc1 : s[2 * k]? with
    | none => simp [hexPairAt, hc1] at hbk
    | some c1 =>
      cases hc2 : s[2 * k + 1]? with
      | none => simp [hexPairAt, hc1, hc2] at hbk
      | some c2 =>
        cases hv1 : hexDigitVal c1 with
        | none => simp [hexPairAt, hc1, hc2, hv1] at hbk
        | some hi =>
          cases hv2 : hexDigitVal c2 with
          | none => simp [hexPairAt, hc1, hc2, hv1, hv2] at hbk
          | some lo =>
            simp [hexPairAt, hc1, hc2, hv1, hv2] at hbk
            have b1 := hexDigitVal_lt c1 hi hv1
            have b2 := hexDigitVal_lt c2 lo hv2
            omega

/-- Witness for C9 at the repo's own failing test input: the 7-character
string is rejected. -/
theorem C9_assert_hash_hex_witness :
    assert_hash_hex_string ("f1c09f8".data) = none :=
  (C9_assert_hash_hex ("f1c09f8".data)).1 (by decide)

/-! ## C8 -/

/-- The candidate loop passes exactly when the ballot has no repeats, is
disjoint from the already-seen set, and every entry is a known candidate. -/
theorem validateLoop_true_iff (valid : List AccountId) :
    ∀ (vs seen : List AccountId),
      validateLoop valid seen vs = true ↔
        vs.Nodup ∧ (∀ c ∈ vs, c ∉ seen) ∧ ∀ c ∈ vs, c ∈ valid := by
  intro vs
  induction vs with
  | nil =>
    intro seen
    simp [validateLoop]
  | cons c rest ih =>
    intro seen
    by_cases hseen : c ∈ seen
    · simp only [validateLoop, if_pos hseen]
      constructor
      · intro hh
        cases hh
      · rintro ⟨_, hns, _⟩
        exact absurd hseen (hns c (List.mem_cons_self _ _))
    · by_cases hval : (binSearch valid c).isSome
      · simp only [validateLoop, if_neg hseen, if_pos hval]
        rw [ih (c :: seen)]
        constructor
        · rintro ⟨hnd, hns, hv⟩
          refine ⟨?_, ?_, ?_⟩
          · rw [List.nodup_cons]
            exact ⟨fun hc => hns c hc (by simp), hnd⟩
          · intro x hx
            rcases List.mem_cons.mp hx with rfl | hx
            · exact hseen
            · exact fun hxs => hns x hx (by simp [hxs])
          · intro x hx
            rcases List.mem_cons.mp hx with rfl | hx
            · exact (binSearch_isSome_iff valid x).mp hval
            · exact hv x hx
        · rintro ⟨hnd, hns, hv⟩
          rw [List.nodup_cons] at hnd
          refine ⟨hnd.2, ?_, fun x hx => hv x (List.mem_cons_of_mem _ hx)⟩
          intro x hx hmem
          rcases List.mem_cons.mp hmem with rfl | hmem
          · exact hnd.1 hx
          · exact hns x (List.mem_cons_of_mem _ hx) hmem
      · simp only [validateLoop, if_neg hseen, if_neg hval]
        constructor
        · intro hh
          cases hh
        · rintro ⟨_, _, hv⟩
          exact (hval ((binSearch_isSome_iff valid c).mpr
            (hv c (List.mem_cons_self _ _)))).elim

/-- C8: with a strictly sorted candidate list, `validate_vote` fails
exactly when the proposal type is `SetupPackage` with an empty ballot, or
the ballot exceeds the credit limit, or the ballot repeats a candidate, or
some ballot entry is not a candidate; otherwise it passes (and, being pure,
has no effect). -/
theorem C8_validate_vote_characterization (typ : ProposalType) (vs : Vote)
    (max_credits : Nat) (cands : List AccountId)
    (hsorted : List.Pairwise (fun a b => a.data < b.data) cands) :
    validate_vote typ vs max_credits cands = false ↔
      (typ = ProposalType.SetupPackage ∧ vs = []) ∨
      max_credits < vs.length ∨
      ¬ vs.Nodup ∨
      ∃ c ∈ vs, c ∉ cands := by
  have htrue : validate_vote typ vs max_credits cands = true ↔
      ¬(typ = ProposalType.SetupPackage ∧ vs = []) ∧
        vs.length ≤ max_credits ∧ vs.Nodup ∧ ∀ c ∈ vs, c ∈ cands := by
    unfold validate_vote
    by_cases h1 : typ = ProposalType.SetupPackage ∧ vs = []
    · simp [h1]
    · rw [if_neg h1]
      by_cases h2 : max_credits < vs.length
      · rw [if_pos h2]
        simp [h1]
        omega
      · rw [if_neg h2]
        rw [validateLoop_true_iff]
        simp [h1]
        intro _ _
        omega
  rw [Bool.eq_false_iff, Ne, htrue]
  push_neg
  constructor
  · intro hh
    by_cases h1 : typ = ProposalType.SetupPackage ∧ vs = []
    · exact Or.inl h1
    · by_cases h2 : max_credits < vs.length
      · exact Or.inr (Or.inl h2)
      · by_cases h3 : vs.Nodup
        · obtain ⟨c, hc, hcn⟩ := hh (fun ht hv => h1 ⟨ht, hv⟩) (by omega) h3
          exact Or.inr (Or.inr (Or.inr ⟨c, hc, hcn⟩))
        · exact Or.inr (Or.inr (Or.inl h3))
  · intro hh h1 h2 h3
    rcases hh with hh | hh | hh | hh
    · exact absurd hh.2 (h1 hh.1)
    · omega
    · exact absurd h3 hh
    · exact hh

/-- Witness for C8: a sorted two-candidate list rejects a ballot naming an
unknown candidate. -/
theorem C8_validate_vote_witness :
    validate_vote ProposalType.HouseOfMerit ["alice.near", "carol.near"] 2
      ["alice.near", "bob.near"] = false :=
  (C8_validate_vote_characterization ProposalType.HouseOfMerit
    ["alice.near", "carol.near"] 2 ["alice.near", "bob.near"]
    (by decide)).mpr (by decide)

/-! ## Inversion of a successful single-token vote -/

/-- Inversion of a successful single-token `vote_on_verified`: the window
was ongoing, the token had no previous `voters` entry, the tally loop
succeeded, and the new state is the explicit update (tallies bumped,
`voters_num + 1`, the token bound to the collected indices, and
`user_sbt[voter] = token`). -/
theorem vote_ok_single_inv (p : Proposal) (now : Nat) (t : TokenId)
    (voter : AccountId) (vote : Vote) (p' : Proposal)
    (h : p.vote_on_verified now [t] voter vote = Outcome.ok p') :
    (p.start ≤ now ∧ now ≤ p.end_) ∧ lmGet p.voters t = none ∧
      ∃ r' idxs, tallyVotes p.candidates p.result vote = some (r', idxs) ∧
        p' = { p with result := r', voters_num := p.voters_num + 1,
                      voters := lmInsert p.voters t idxs,
                      user_sbt := lmInsert p.user_sbt voter t } := by
  rw [vote_on_verified_single] at h
  by_cases hact : p.start ≤ now ∧ now ≤ p.end_
  · rw [if_pos hact] at h
    cases ht : tallyVotes p.candidates p.result vote with
    | none =>
      simp only [ht] at h
      cases h
    | some pr =>
      obtain ⟨r', idxs⟩ := pr
      simp only [ht] at h
      by_cases hprev : (lmGet p.voters t).isSome
      · rw [if_pos hprev] at h
        cases h
      · rw [if_neg hprev] at h
        cases h
        refine ⟨hact, ?_, r', idxs, rfl, rfl⟩
        cases hg : lmGet p.voters t with
        | none => rfl
        | some v =>
          rw [hg] at hprev
          simp at hprev
  · rw [if_neg hact] at h
    cases h

/-! ## C1 -/

/-- C1 counterexample: in `doubleVoteState`, token `1` already has an
active vote; a second single-token vote with token `1` returns
`Err(DoubleVote(1))`, yet the returned state has its tallies incremented
(`[2, 0]` instead of `[1, 0]`) and `voters_num` incremented (`2` instead
of `1`) — the externally observable state after the failing call does not
equal the state before it. -/
theorem C1_counterexample :
    doubleVoteState.vote_on_verified 50 [1] "alice.near" ["alice.near"] =
      Outcome.err (VoteError.DoubleVote 1)
        { doubleVoteState with result := [2, 0], voters_num := 2 } ∧
    ¬ ({ doubleVoteState with result := [2, 0], voters_num := 2 } =
        doubleVoteState) := by
  exact ⟨by decide, by decide⟩

/-- C1 (amended): a single-token `vote_on_verified` that returns an error
always returns `Err(DoubleVote(token))` for the presented token, which was
already a key of `voters`; the returned state is, however, NOT the
pre-call state: the ballot's tallies have been incremented, `voters_num`
has been incremented, and the token's `voters` entry has been overwritten
with the new index list (`user_sbt` alone is unchanged).  The unchanged
pre-call state is only restored by the host environment's whole-transaction
rollback, outside this function. -/
theorem C1_amended_error_state (p : Proposal) (now : Nat) (t : TokenId)
    (voter : AccountId) (vote : Vote) (e : VoteError) (p' : Proposal)
    (h : p.vote_on_verified now [t] voter vote = Outcome.err e p') :
    e = VoteError.DoubleVote t ∧ (lmGet p.voters t).isSome ∧
      ∃ r' idxs, tallyVotes p.candidates p.result vote = some (r', idxs) ∧
        p' = { p with result := r', voters_num := p.voters_num + 1,
                      voters := lmInsert p.voters t idxs } := by
  rw [vote_on_verified_single] at h
  by_cases hact : p.start ≤ now ∧ now ≤ p.end_
  · rw [if_pos hact] at h
    cases ht : tallyVotes p.candidates p.result vote with
    | none =>
      simp only [ht] at h
      cases h
    | some pr =>
      obtain ⟨r', idxs⟩ := pr
      simp only [ht] at h
      by_cases hprev : (lmGet p.voters t).isSome
      · rw [if_pos hprev] at h
        cases h
        exact ⟨rfl, hprev, r', idxs, rfl, rfl⟩
      · rw [if_neg hprev] at h
        cases h
  · rw [if_neg hact] at h
    cases h

/-- Witness for the amended C1 at the concrete double-vote input. -/
theorem C1_amended_error_state_witness :
    VoteError.DoubleVote 1 = VoteError.DoubleVote 1 ∧
    (lmGet doubleVoteState.voters 1).isSome ∧
      ∃ r' idxs,
        tallyVotes doubleVoteState.candidates doubleVoteState.result
          ["alice.near"] = some (r', idxs) ∧
        { doubleVoteState with result := [2, 0], voters_num := 2 } =
          { doubleVoteState with
              result := r', voters_num := doubleVoteState.voters_num + 1,
              voters := lmInsert doubleVoteState.voters 1 idxs } :=
  C1_amended_error_state doubleVoteState 50 1 "alice.near" ["alice.near"]
    (VoteError.DoubleVote 1)
    { doubleVoteState with result := [2, 0], voters_num := 2 }
    (by decide)

/-! ## C7 -/

/-- C7 counterexample: token `7` votes successfully, the vote is revoked,
and the very same token then votes successfully AGAIN (`Ok`, not
`Err(DoubleVote)`): a token that was once used to vote is not rejected
forever, only while its vote is still active. -/
theorem C7_counterexample :
    sampleProposal.vote_on_verified 10 [7] "alice.near" ["bob.near"] =
      Outcome.ok afterVote ∧
    afterVote.revoke_votes 20 7 = Outcome.ok afterRevoke ∧
    afterRevoke.vote_on_verified 30 [7] "alice.near" ["bob.near"] =
      Outcome.ok afterVote :=
  ⟨by decide, by decide, by decide⟩

/-- C7 (amended): a single-token `vote_on_verified` in the voting window
whose ballot tallies successfully fails exactly when the presented token
CURRENTLY has an active (non-revoked) entry in `voters`, and the error is
then `DoubleVote(token)`; after a revoke the token is no longer a key of
`voters`, so it can vote again. -/
theorem C7_amended_doublevote_iff (p : Proposal) (now : Nat) (t : TokenId)
    (voter : AccountId) (vote : Vote)
    (hact : p.start ≤ now ∧ now ≤ p.end_) (r' idxs : List Nat)
    (htally : tallyVotes p.candidates p.result vote = some (r', idxs)) :
    ((∃ e p', p.vote_on_verified now [t] voter vote = Outcome.err e p') ↔
      (lmGet p.voters t).isSome) ∧
    ∀ e p', p.vote_on_verified now [t] voter vote = Outcome.err e p' →
      e = VoteError.DoubleVote t := by
  rw [vote_on_verified_single, if_pos hact]
  simp only [htally]
  by_cases hprev : (lmGet p.voters t).isSome
  · rw [if_pos hprev]
    refine ⟨⟨fun _ => hprev, fun _ => ⟨_, _, rfl⟩⟩, ?_⟩
    intro e p' hh
    cases hh
    rfl
  · rw [if_neg hprev]
    refine ⟨⟨?_, fun hh => absurd hh hprev⟩, ?_⟩
    · rintro ⟨e, p', hh⟩
      cases hh
    · intro e p' hh
      cases hh

/-- Witness for the amended C7: in `doubleVoteState` the repeated token `1`
makes the vote fail. -/
theorem C7_amended_doublevote_iff_witness :
    ∃ e p', doubleVoteState.vote_on_verified 50 [1] "alice.near"
      ["alice.near"] = Outcome.err e p' :=
  ((C7_amended_doublevote_iff doubleVoteState 50 1 "alice.near" ["alice.near"]
      (by decide) [2, 0] [0] (by decide)).1).mpr (by decide)

/-! ## C10 -/

/-- C10: a successful `revoke_votes` leaves `user_sbt` completely
unchanged, for every proposal state and token; in particular after a
single-token vote followed by a successful revoke of that token, the
account-to-token audit mapping written by the vote still records the
revoked token. -/
theorem C10_revoke_preserves_user_sbt (p : Proposal) (now : Nat) (tok : TokenId) :
    (∀ p', p.revoke_votes now tok = Outcome.ok p' → p'.user_sbt = p.user_sbt) ∧
    ∀ now1 voter vote p1 p2,
      p.vote_on_verified now1 [tok] voter vote = Outcome.ok p1 →
      p1.revoke_votes now tok = Outcome.ok p2 →
      lmGet p2.user_sbt voter = some tok := by
  constructor
  · intro p' h
    obtain ⟨-, v, r', -, -, -, hp'⟩ := revoke_votes_ok_inv p now tok p' h
    rw [hp']
  · intro now1 voter vote p1 p2 h1 h2
    obtain ⟨-, -, r', idxs, -, hp1⟩ := vote_ok_single_inv p now1 tok voter vote p1 h1
    obtain ⟨-, v, r'', -, -, -, hp2⟩ := revoke_votes_ok_inv p1 now tok p2 h2
    rw [hp2, hp1]
    exact lmGet_lmInsert_self p.user_sbt voter tok

/-- Witness for C10 at the concrete vote-then-revoke run. -/
theorem C10_revoke_preserves_user_sbt_witness :
    afterRevoke.user_sbt = afterVote.user_sbt ∧
    lmGet afterRevoke.user_sbt "alice.near" = some 7 :=
  ⟨(C10_revoke_preserves_user_sbt afterVote 20 7).1 afterRevoke (by decide),
   (C10_revoke_preserves_user_sbt sampleProposal 20 7).2 10 "alice.near"
     ["bob.near"] afterVote afterRevoke (by decide) (by decide)⟩

/-! ## C3 -/

/-- C3: if a single-token `vote_on_verified` with a validated ballot
succeeds and a `revoke_votes` of that token then succeeds, the `result`
vector and `voters_num` after the revoke equal their values before the
vote was cast. -/
theorem C3_vote_revoke_roundtrip (p p1 p2 : Proposal) (now1 now2 : Nat)
    (t : TokenId) (voter : AccountId) (vote : Vote)
    (hval : validate_vote p.typ vote p.seats p.candidates = true)
    (h1 : p.vote_on_verified now1 [t] voter vote = Outcome.ok p1)
    (h2 : p1.revoke_votes now2 t = Outcome.ok p2) :
    p2.result = p.result ∧ p2.voters_num = p.voters_num := by
  obtain ⟨hact, hprev, r', idxs, ht, hp1⟩ := vote_ok_single_inv p now1 t voter vote p1 h1
  obtain ⟨hact2, v, r'', hg, hu, hn, hp2⟩ := revoke_votes_ok_inv p1 now2 t p2 h2
  subst hp1
  rw [lmGet_lmInsert_self] at hg
  injection hg with hgv
  subst hgv
  obtain ⟨hlen1, hcnt1, hmem1, hpt1⟩ := tallyVotes_spec p.candidates vote p.result r' idxs ht
  obtain ⟨hlen2, hpt2⟩ := untallyVotes_spec idxs r' r'' hu
  have hres : r'' = p.result := by
    apply List.ext_getElem?
    intro i
    have e2 := hpt2 i
    rw [hpt1 i] at e2
    cases hg0 : p.result[i]? with
    | none =>
      rw [hg0] at e2
      simpa using e2
    | some x =>
      rw [hg0] at e2
      simpa using e2
  rw [hp2, hres]
  exact ⟨rfl, rfl⟩

/-- Witness for C3 at the concrete vote-then-revoke run. -/
theorem C3_vote_revoke_roundtrip_witness :
    afterRevoke.result = sampleProposal.result ∧
    afterRevoke.voters_num = sampleProposal.voters_num :=
  C3_vote_revoke_roundtrip sampleProposal afterVote afterRevoke 10 20 7
    "alice.near" ["bob.near"] (by decide) (by decide) (by decide)

/-! ## Sum lemmas for the tally loops -/

theorem sum_bumpAt (r : List Nat) (i : Nat) (h : i < r.length) :
    (bumpAt r i).sum = r.sum + 1 := by
  induction r generalizing i with
  | nil => simp at h
  | cons x xs ih =>
    cases i with
    | zero => simp [bumpAt]; omega
    | succ j =>
      simp [bumpAt]
      rw [ih j (by simpa using h)]
      omega

theorem tallyVotes_sum (cands : List AccountId) :
    ∀ (v : Vote) (r r' idxs : List Nat),
      tallyVotes cands r v = some (r', idxs) → r'.sum = r.sum + v.length := by
  intro v
  induction v with
  | nil =>
    intro r r' idxs h
    simp [tallyVotes] at h
    obtain ⟨rfl, rfl⟩ := h
    simp
  | cons c rest ih =>
    intro r r' idxs h
    simp only [tallyVotes] at h
    cases hb : binSearch cands c with
    | none => simp [hb] at h
    | some idx =>
      simp only [hb] at h
      by_cases hlt : idx < r.length
      · simp only [if_pos hlt] at h
        cases ht : tallyVotes cands (bumpAt r idx) rest with
        | none => simp [ht] at h
        | some pr =>
          obtain ⟨r2, idxs2⟩ := pr
          simp only [ht, Option.some.injEq, Prod.mk.injEq] at h
          obtain ⟨rfl, rfl⟩ := h
          rw [ih (bumpAt r idx) r2 idxs2 ht, sum_bumpAt r idx hlt]
          simp
          omega
      · simp [if_neg hlt] at h

theorem sum_decAt (r : List Nat) (i : Nat) (h : i < r.length)
    (hpos : 0 < r[i]?.getD 0) : (decAt r i).sum + 1 = r.sum := by
  induction r generalizing i with
  | nil => simp at h
  | cons x xs ih =>
    cases i with
    | zero =>
      simp at hpos
      simp [decAt]
      omega
    | succ j =>
      simp at hpos
      simp [decAt]
      rw [← ih j (by simpa using h) (by simpa using hpos)]
      omega

theorem untallyVotes_sum :
    ∀ (l r r' : List Nat),
      untallyVotes r l = some r' → r'.sum + l.length = r.sum := by
  intro l
  induction l with
  | nil =>
    intro r r' h
    simp [untallyVotes] at h
    subst h
    simp
  | cons idx rest ih =>
    intro r r' h
    simp only [untallyVotes] at h
    cases hg : r[idx]? with
    | none => simp [hg] at h
    | some n =>
      cases n with
      | zero => simp [hg] at h
      | succ m =>
        simp only [hg] at h
        have hlt : idx < r.length := by
          by_contra hc
          rw [List.getElem?_eq_none_iff.mpr (by omega)] at hg
          cases hg
        have := ih (decAt r idx) r' h
        have hsd := sum_decAt r idx hlt (by rw [hg]; simp)
        simp at this ⊢
        omega

/-! ## C2 -/

/-- One clean step preserves the counting invariants: distinct voter keys,
`len(voters) = voters_num`, and `sum(result) =` the total length of the
recorded index lists. -/
theorem cleanStep_inv (p p' : Proposal) (hstep : CleanStep p p')
    (hinv : (lmKeys p.voters).Nodup ∧ p.voters.length = p.voters_num ∧
      p.result.sum = lmValSum List.length p.voters) :
    (lmKeys p'.voters).Nodup ∧ p'.voters.length = p'.voters_num ∧
      p'.result.sum = lmValSum List.length p'.voters := by
  obtain ⟨hnd, hlen, hsum⟩ := hinv
  cases hstep with
  | vote now t voter vote p p' hval hok =>
    obtain ⟨hact, hprev, r', idxs, ht, hp'⟩ :=
      vote_ok_single_inv p now t voter vote p' hok
    subst hp'
    have hrm : lmRemove p.voters t = p.voters := lmRemove_eq_self p.voters t hprev
    have hcl : idxs.length = vote.length :=
      (tallyVotes_spec p.candidates vote p.result r' idxs ht).2.1
    refine ⟨lmKeys_lmInsert_nodup p.voters t idxs hnd, ?_, ?_⟩
    · show (lmInsert p.voters t idxs).length = p.voters_num + 1
      rw [lmInsert, hrm]
      simp [hlen]
    · show r'.sum = lmValSum List.length (lmInsert p.voters t idxs)
      rw [lmInsert, hrm, tallyVotes_sum p.candidates vote p.result r' idxs ht]
      simp [lmValSum, hsum, lmValSum, hcl]
      omega
  | revoke now tok p p' hok =>
    obtain ⟨hact, v, r', hg, hu, hn, hp'⟩ := revoke_votes_ok_inv p now tok p' hok
    subst hp'
    refine ⟨lmKeys_lmRemove_nodup p.voters tok hnd, ?_, ?_⟩
    · show (lmRemove p.voters tok).length = p.voters_num - 1
      have := length_lmRemove_get_some p.voters tok v hnd hg
      omega
    · show r'.sum = lmValSum List.length (lmRemove p.voters tok)
      have h1 := untallyVotes_sum v p.result r' hu
      have h2 := lmValSum_lmRemove_get_some List.length p.voters tok v hnd hg
      omega

/-- The counting invariants hold in every state cleanly reachable from a
fresh proposal. -/
theorem cleanReach_inv (p0 p : Proposal) (h0 : IsFresh p0) (h : CleanReach p0 p) :
    (lmKeys p.voters).Nodup ∧ p.voters.length = p.voters_num ∧
      p.result.sum = lmValSum List.length p.voters := by
  induction h with
  | refl =>
    obtain ⟨hr, hv, hn, hu⟩ := h0
    rw [hv, hn, hr]
    refine ⟨by simp [lmKeys], rfl, ?_⟩
    simp [lmValSum, List.sum_replicate]
  | tail hsteps hstep ih => exact cleanStep_inv _ _ hstep ih

/-- C2: in every state reachable from a fresh proposal by successful
single-token `vote_on_verified` calls with validated ballots and successful
`revoke_votes` calls, the number of `voters` entries equals `voters_num`,
and the sum of the `result` entries equals the total length of the
candidate-index lists recorded in `voters`. -/
theorem C2_vote_revoke_invariants (p0 p : Proposal) (h0 : IsFresh p0)
    (h : CleanReach p0 p) :
    p.voters.length = p.voters_num ∧
      p.result.sum = lmValSum List.length p.voters :=
  ⟨(cleanReach_inv p0 p h0 h).2.1, (cleanReach_inv p0 p h0 h).2.2⟩

/-- Witness for C2: the fresh sample proposal is fresh, and the invariants
hold after one concrete vote step. -/
theorem C2_vote_revoke_invariants_witness :
    IsFresh sampleProposal ∧
    afterVote.voters.length = afterVote.voters_num ∧
      afterVote.result.sum = lmValSum List.length afterVote.voters :=
  ⟨⟨by decide, by decide, by decide, by decide⟩,
   C2_vote_revoke_invariants sampleProposal afterVote
     ⟨by decide, by decide, by decide, by decide⟩
     (Relation.ReflTransGen.single
       (CleanStep.vote 10 7 "alice.near" ["bob.near"] sampleProposal afterVote
         (by decide) (by decide)))⟩

/-! ## C4 -/

/-- Inversion of a single-token `vote_on_verified` that returns an error:
the window was ongoing, the error is `DoubleVote` for the presented token,
which already had a `voters` entry, and the returned state carries the
bumped tallies, the incremented counter and the overwritten entry. -/
theorem vote_err_single_inv (p : Proposal) (now : Nat) (t : TokenId)
    (voter : AccountId) (vote : Vote) (e : VoteError) (p' : Proposal)
    (h : p.vote_on_verified now [t] voter vote = Outcome.err e p') :
    (p.start ≤ now ∧ now ≤ p.end_) ∧ e = VoteError.DoubleVote t ∧
      (lmGet p.voters t).isSome ∧
      ∃ r' idxs, tallyVotes p.candidates p.result vote = some (r', idxs) ∧
        p' = { p with result := r', voters_num := p.voters_num + 1,
                      voters := lmInsert p.voters t idxs } := by
  rw [vote_on_verified_single] at h
  by_cases hact : p.start ≤ now ∧ now ≤ p.end_
  · rw [if_pos hact] at h
    cases ht : tallyVotes p.candidates p.result vote with
    | none =>
      simp only [ht] at h
      cases h
    | some pr =>
      obtain ⟨r', idxs⟩ := pr
      simp only [ht] at h
      by_cases hprev : (lmGet p.voters t).isSome
      · rw [if_pos hprev] at h
        cases h
        exact ⟨hact, rfl, hprev, r', idxs, rfl, rfl⟩
      · rw [if_neg hprev] at h
        cases h
  · rw [if_neg hact] at h
    cases h

/-- A `revoke_votes` call that returns an error returns the state
unchanged. -/
theorem revoke_votes_err_state (p : Proposal) (now : Nat) (tok : TokenId)
    (e : RevokeVoteError) (p' : Proposal)
    (h : p.revoke_votes now tok = Outcome.err e p') : p' = p := by
  unfold Proposal.revoke_votes at h
  by_cases hact : p.is_active_or_cooldown now = true
  · rw [if_pos hact] at h
    cases hg : lmGet p.voters tok with
    | none =>
      simp only [hg] at h
      cases h
      rfl
    | some v =>
      simp only [hg] at h
      cases hu : untallyVotes p.result v with
      | none =>
        simp only [hu] at h
        cases h
      | some r' =>
        simp only [hu] at h
        by_cases hn : p.voters_num = 0
        · rw [if_pos hn] at h
          cases h
        · rw [if_neg hn] at h
          cases h
  · rw [if_neg hact] at h
    cases h
    rfl

/-- When the candidate indices recorded in `voters` are in range of an
out-of-range position `j`, no recorded vote counts towards `j`. -/
theorem lmValSum_count_zero (m : List (TokenId × List Nat)) (L j : Nat)
    (hb : ∀ e ∈ m, ∀ i ∈ e.2, i < L) (hj : L ≤ j) :
    lmValSum (fun v => v.count j) m = 0 := by
  induction m with
  | nil => rfl
  | cons e rest ih =>
    have h1 : e.2.count j = 0 := by
      rw [List.count_eq_zero]
      intro hmem
      exact absurd (hb e (List.mem_cons_self _ _) j hmem) (by omega)
    have h2 : lmValSum (fun v => v.count j) rest = 0 :=
      ih (fun x hx => hb x (List.mem_cons_of_mem _ hx))
    simp only [lmValSum, List.map_cons, List.sum_cons] at h2 ⊢
    rw [h1, h2]

/-- Any single-token step — error outcomes included — preserves the
internal consistency invariant. -/
theorem anyStep_inv (p p' : Proposal) (hstep : AnyStep p p')
    (hinv : VotersInv p) : VotersInv p' := by
  obtain ⟨hnd, hle, hbound, hcnt⟩ := hinv
  cases hstep with
  | vote_ok now t voter vote p p' hok =>
    obtain ⟨hact, hprev, r', idxs, ht, hp'⟩ :=
      vote_ok_single_inv p now t voter vote p' hok
    subst hp'
    obtain ⟨hrlen, hcl, hmem, hpt⟩ :=
      tallyVotes_spec p.candidates vote p.result r' idxs ht
    have hrm : lmRemove p.voters t = p.voters := lmRemove_eq_self p.voters t hprev
    refine ⟨lmKeys_lmInsert_nodup p.voters t idxs hnd, ?_, ?_, ?_⟩
    · show (lmInsert p.voters t idxs).length ≤ p.voters_num + 1
      rw [lmInsert, hrm]
      simp
      omega
    · show ∀ e ∈ lmInsert p.voters t idxs, ∀ i ∈ e.2, i < r'.length
      rw [lmInsert, hrm, hrlen]
      intro e he i hi
      rcases List.mem_cons.mp he with rfl | he
      · exact hmem i hi
      · exact hbound e he i hi
    · intro j
      show lmValSum (fun v => v.count j) (lmInsert p.voters t idxs) ≤
        r'[j]?.getD 0
      rw [lmInsert, hrm]
      have hv : lmValSum (fun v => v.count j) ((t, idxs) :: p.voters) =
          idxs.count j + lmValSum (fun v => v.count j) p.voters := by
        simp [lmValSum]
      rw [hv, hpt j]
      cases hg0 : p.result[j]? with
      | none =>
        have hjout : p.result.length ≤ j := List.getElem?_eq_none_iff.mp hg0
        have hc0 : idxs.count j = 0 := by
          rw [List.count_eq_zero]
          intro hmemj
          exact absurd (hmem j hmemj) (by omega)
        have hz := lmValSum_count_zero p.voters p.result.length j hbound hjout
        simp [hc0, hz]
      | some x =>
        have := hcnt j
        rw [hg0] at this
        simp at this ⊢
        omega
  | vote_err now t voter vote e p p' herr =>
    obtain ⟨hact, he, hprev, r', idxs, ht, hp'⟩ :=
      vote_err_single_inv p now t voter vote e p' herr
    subst hp'
    obtain ⟨hrlen, hcl, hmem, hpt⟩ :=
      tallyVotes_spec p.candidates vote p.result r' idxs ht
    obtain ⟨old, hold⟩ := Option.isSome_iff_exists.mp hprev
    refine ⟨lmKeys_lmInsert_nodup p.voters t idxs hnd, ?_, ?_, ?_⟩
    · show (lmInsert p.voters t idxs).length ≤ p.voters_num + 1
      rw [lmInsert]
      have := length_lmRemove_get_some p.voters t old hnd hold
      simp
      omega
    · show ∀ e ∈ lmInsert p.voters t idxs, ∀ i ∈ e.2, i < r'.length
      rw [lmInsert, hrlen]
      intro e he i hi
      rcases List.mem_cons.mp he with rfl | he
      · exact hmem i hi
      · exact hbound e (lmRemove_subset p.voters t e he) i hi
    · intro j
      show lmValSum (fun v => v.count j) (lmInsert p.voters t idxs) ≤
        r'[j]?.getD 0
      rw [lmInsert]
      have hv : lmValSum (fun v => v.count j) ((t, idxs) :: lmRemove p.voters t) =
          idxs.count j + lmValSum (fun v => v.count j) (lmRemove p.voters t) := by
        simp [lmValSum]
      rw [hv, hpt j]
      have hrle := lmValSum_lmRemove_le (fun v => v.count j) p.voters t
      cases hg0 : p.result[j]? with
      | none =>
        have hjout : p.result.length ≤ j := List.getElem?_eq_none_iff.mp hg0
        have hc0 : idxs.count j = 0 := by
          rw [List.count_eq_zero]
          intro hmemj
          exact absurd (hmem j hmemj) (by omega)
        have hz := lmValSum_count_zero p.voters p.result.length j hbound hjout
        simp [hc0]
        omega
      | some x =>
        have := hcnt j
        rw [hg0] at this
        simp at this ⊢
        omega
  | revoke_ok now tok p p' hok =>
    obtain ⟨hact, v, r', hg, hu, hn, hp'⟩ := revoke_votes_ok_inv p now tok p' hok
    subst hp'
    obtain ⟨hrlen, hpt⟩ := untallyVotes_spec v p.result r' hu
    refine ⟨lmKeys_lmRemove_nodup p.voters tok hnd, ?_, ?_, ?_⟩
    · show (lmRemove p.voters tok).length ≤ p.voters_num - 1
      have := length_lmRemove_get_some p.voters tok v hnd hg
      omega
    · show ∀ e ∈ lmRemove p.voters tok, ∀ i ∈ e.2, i < r'.length
      rw [hrlen]
      intro e he i hi
      exact hbound e (lmRemove_subset p.voters tok e he) i hi
    · intro j
      show lmValSum (fun v => v.count j) (lmRemove p.voters tok) ≤ r'[j]?.getD 0
      have hrem : lmValSum (fun w => w.count j) (lmRemove p.voters tok) +
          v.count j = lmValSum (fun w => w.count j) p.voters :=
        lmValSum_lmRemove_get_some (fun w => w.count j) p.voters tok v hnd hg
      rw [hpt j]
      cases hg0 : p.result[j]? with
      | none =>
        have hjout : p.result.length ≤ j := List.getElem?_eq_none_iff.mp hg0
        have hz := lmValSum_count_zero p.voters p.result.length j hbound hjout
        simp
        omega
      | some x =>
        have := hcnt j
        rw [hg0] at this
        simp at this ⊢
        omega
  | revoke_err now tok e p p' herr =>
    have := revoke_votes_err_state p now tok e p' herr
    subst this
    exact ⟨hnd, hle, hbound, hcnt⟩

/-- The internal consistency invariant holds in every state reachable from
a fresh proposal by arbitrary single-token calls. -/
theorem anyReach_inv (p0 p : Proposal) (h0 : IsFresh p0) (h : AnyReach p0 p) :
    VotersInv p := by
  induction h with
  | refl =>
    obtain ⟨hr, hv, hn, hu⟩ := h0
    rw [VotersInv, hv, hn]
    refine ⟨by simp [lmKeys], by simp, by simp, ?_⟩
    intro j
    simp [lmValSum]
  | tail hsteps hstep ih => exact anyStep_inv _ _ hstep ih

/-- Under the consistency invariant, `revoke_votes` never aborts: in
particular the `result[idx] -= 1` decrements never underflow and the
`voters_num` decrement never underflows. -/
theorem revoke_votes_not_fatal (p : Proposal) (now : Nat) (tok : TokenId)
    (hinv : VotersInv p) : p.revoke_votes now tok ≠ Outcome.fatal := by
  obtain ⟨hnd, hle, hbound, hcnt⟩ := hinv
  intro hfatal
  unfold Proposal.revoke_votes at hfatal
  by_cases hact : p.is_active_or_cooldown now = true
  · rw [if_pos hact] at hfatal
    cases hg : lmGet p.voters tok with
    | none =>
      simp only [hg] at hfatal
      cases hfatal
    | some v =>
      simp only [hg] at hfatal
      have hmem := lmGet_mem p.voters tok v hg
      have humem : ∀ i ∈ v, i < p.result.length := hbound (tok, v) hmem
      have hvcnt : ∀ j, v.count j ≤ p.result[j]?.getD 0 := by
        intro j
        have hx : v.count j ∈ p.voters.map (fun e => e.2.count j) :=
          List.mem_map_of_mem (fun e => e.2.count j) hmem
        calc v.count j ≤ (p.voters.map (fun e => e.2.count j)).sum :=
              List.single_le_sum (fun x _ => Nat.zero_le x) _ hx
          _ ≤ p.result[j]?.getD 0 := hcnt j
      obtain ⟨r', hr'⟩ := untallyVotes_isSome v p.result humem hvcnt
      simp only [hr'] at hfatal
      have hn : ¬ p.voters_num = 0 := by
        have hpos : 0 < p.voters.length :=
          List.length_pos.mpr (List.ne_nil_of_mem hmem)
        omega
      rw [if_neg hn] at hfatal
      cases hfatal
  · rw [if_neg hact] at hfatal
    cases hfatal

/-- C4: in every state reachable from a fresh proposal by single-token
`vote_on_verified` and `revoke_votes` calls (error outcomes included),
every `result` entry is a non-negative count, and `revoke_votes` can never
abort: its `result[idx] -= 1` decrement never underflows, because every
recorded index of a present `voters` entry was previously tallied and an
already-revoked token no longer has an entry to decrement through. -/
theorem C4_result_no_underflow (p0 p : Proposal) (h0 : IsFresh p0)
    (h : AnyReach p0 p) :
    (∀ x ∈ p.result, 0 ≤ x) ∧
    ∀ now tok, p.revoke_votes now tok ≠ Outcome.fatal :=
  ⟨fun x _ => Nat.zero_le x,
   fun now tok => revoke_votes_not_fatal p now tok (anyReach_inv p0 p h0 h)⟩

/-- Witness for C4 after a concrete vote step: the revoke of the recorded
token succeeds (and in particular does not abort). -/
theorem C4_result_no_underflow_witness :
    IsFresh sampleProposal ∧
    afterVote.revoke_votes 20 7 ≠ Outcome.fatal :=
  ⟨⟨by decide, by decide, by decide, by decide⟩,
   (C4_result_no_underflow sampleProposal afterVote
     ⟨by decide, by decide, by decide, by decide⟩
     (Relation.ReflTransGen.single
       (AnyStep.vote_ok 10 7 "alice.near" ["bob.near"] sampleProposal afterVote
         (by decide)))).2 20 7⟩
